import Mathlib

/-!
Shallow embedding of the arbitrage detection-and-validation pipeline of
`src/service/arbitrage.service.ts`, together with proofs about it.

Modelling conventions:
* JavaScript numbers are idealized as rationals (`ℚ`); `parseFloat(x.toFixed(4))`
  becomes `roundTo4`, where a tie is resolved toward the larger integer, as the
  ECMAScript `toFixed` specification prescribes.
* A `Promise` that either resolves or rejects is modelled as `Except Unit`; a
  value that may be `null`/`undefined` is modelled as `Option`.
* A JavaScript `Map` is modelled as an insertion-ordered association list whose
  `set` operation (`mapSet`) updates an existing key in place and appends a
  fresh key at the end, so iteration order matches `Map` iteration order.
* Opaque `raw`/`any` payloads are modelled by `Option String` stand-ins (`none`
  plays the role of a falsy/absent payload); the core never inspects them.
* The repository map `Map<ExchangeName, IExchangeRepository>` is modelled by
  `ExchangeRepos`: `hasRepo` is key membership (an absent key makes the service
  throw inside its `try` block, since `get(...)!` yields `undefined`), and the
  two fetch methods are total functions returning `Except`/`Option` results.
-/

namespace Arbitrage

/-- Configuration consumed by the service (`ArbitrageConfig` in
`types/config.types.ts`): minimum acceptable spread and optional quote-asset
allow-list. -/
structure ArbitrageConfig where
  minProfitPercentage : ℚ
  quoteAssetsFilter : Option (List String)
deriving DecidableEq

/-- A standardized trading pair (`StandardPair` in `types/domain.types.ts`);
the opaque `raw` payload is not modelled. -/
structure StandardPair where
  symbol : String
  base : String
  quote : String
  exchange : String
deriving DecidableEq

/-- Instantaneous quote for one pair on one exchange (`StandardTicker`). -/
structure StandardTicker where
  exchange : String
  price : ℚ
  bid : ℚ
  ask : ℚ
deriving DecidableEq

/-- Deposit/withdraw capability of an asset on one exchange (`AssetStatus`);
`assetInfo` is the opaque raw payload, modelled as an optional string where
`none` stands for a falsy payload. -/
structure AssetStatus where
  canDeposit : Bool
  canWithdraw : Bool
  depositNetworks : List String
  withdrawNetworks : List String
  assetInfo : Option String
deriving DecidableEq

/-- Pair listings of one exchange (`ExchangeData` in `types/service.types.ts`). -/
structure ExchangeData where
  name : String
  pairs : List StandardPair
deriving DecidableEq

/-- A symbol together with the exchanges listing it (`SharedPairInfo`). -/
structure SharedPairInfo where
  symbol : String
  exchanges : List (String × StandardPair)
deriving DecidableEq

/-- A shared pair enriched with per-exchange tickers (`EnrichedPair`); the
`tickers` field is the JS `Map` as an insertion-ordered association list. -/
structure EnrichedPair where
  symbol : String
  exchanges : List (String × StandardPair)
  tickers : List (String × StandardTicker)
deriving DecidableEq

/-- One side of an opportunity (`{ exchange, price }` in the model). -/
structure PricePoint where
  exchange : String
  price : ℚ
deriving DecidableEq

/-- The `buyExchange` sub-record of a validation
(`validation.buyExchange` in `model/opportunity.model.ts`). -/
structure BuyExchangeInfo where
  canWithdraw : Bool
  withdrawNetworks : Option (List String)
deriving DecidableEq

/-- The `sellExchange` sub-record of a validation. -/
structure SellExchangeInfo where
  canDeposit : Bool
  depositNetworks : Option (List String)
deriving DecidableEq

/-- Raw asset payloads stored for one asset on both legs
(`validation.assetDetails.baseAsset` / `.quoteAsset`). -/
structure AssetSideDetails where
  buyExchange : Option String
  sellExchange : Option String
deriving DecidableEq

/-- The validation record attached by `_validateSingleOpportunity`. -/
structure OpportunityValidation where
  isExecutable : Bool
  commonNetworks : List String
  buyExchange : BuyExchangeInfo
  sellExchange : SellExchangeInfo
  baseAssetDetails : AssetSideDetails
  quoteAssetDetails : AssetSideDetails
deriving DecidableEq

/-- An arbitrage opportunity (`Opportunity` in `model/opportunity.model.ts`). -/
structure Opportunity where
  pair : String
  profitPercentage : ℚ
  buyAt : PricePoint
  sellAt : PricePoint
  validation : Option OpportunityValidation
deriving DecidableEq

/-- The registered exchange repositories: `hasRepo` models key membership of
the `Map<ExchangeName, IExchangeRepository>`, `fetchTicker` and
`getAssetStatus` model the corresponding repository methods, where `.error`
is a rejected promise and `.ok none` a fulfilled `null`. -/
structure ExchangeRepos where
  hasRepo : String → Bool
  fetchTicker : String → StandardPair → Except Unit (Option StandardTicker)
  getAssetStatus : String → String → Except Unit (Option AssetStatus)

/-- Rounding to 4 decimal places, the exact-arithmetic reading of
`parseFloat(x.toFixed(4))`: round to the nearest multiple of `1/10000`,
ties toward the larger value. -/
def roundTo4 (q : ℚ) : ℚ := (⌊q * 10000 + 1/2⌋ : ℚ) / 10000

/-- Whether the quote-asset filter is active:
`config.quoteAssetsFilter && config.quoteAssetsFilter.length > 0`. -/
def quoteFilterActive (c : ArbitrageConfig) : Bool :=
  match c.quoteAssetsFilter with
  | none => false
  | some l => decide (0 < l.length)

/-- Whether a pair survives the quote-asset filter; the negation of the
`continue` condition inside `findSharedPairs`. -/
def keepPair (c : ArbitrageConfig) (p : StandardPair) : Bool :=
  !(quoteFilterActive c && !((c.quoteAssetsFilter.getD []).contains p.quote))

/-- `Map.set` on an insertion-ordered association list: an existing key is
updated in place, a fresh key is appended at the end. -/
def mapSet {α : Type} (m : List (String × α)) (k : String) (v : α) :
    List (String × α) :=
  match m with
  | [] => [(k, v)]
  | (k1, v1) :: rest =>
    if k1 = k then (k1, v) :: rest else (k1, v1) :: mapSet rest k v

/-- The `if (!pairMap.has(symbol)) pairMap.set(symbol, []);
pairMap.get(symbol)!.push(entry)` step of `findSharedPairs`: append `v` to the
bucket of key `k`, creating the bucket at the end of the map if absent. -/
def mapPush {α : Type} (m : List (String × List α)) (k : String) (v : α) :
    List (String × List α) :=
  match m with
  | [] => [(k, [v])]
  | (k1, vs) :: rest =>
    if k1 = k then (k1, vs ++ [v]) :: rest else (k1, vs) :: mapPush rest k v

/-- The grouping map built by the two nested loops of `findSharedPairs`:
every pair surviving the quote filter is pushed onto the bucket of its
symbol, in exchange order and, within an exchange, listing order. -/
def buildPairMap (c : ArbitrageConfig) (exchangeData : List ExchangeData) :
    List (String × List (String × StandardPair)) :=
  exchangeData.foldl
    (fun m exchange =>
      exchange.pairs.foldl
        (fun m pair =>
          if keepPair c pair then mapPush m pair.symbol (exchange.name, pair)
          else m)
        m)
    []

/-- `ArbitrageService.findSharedPairs`: group pairs by symbol (after the quote
filter) and keep the buckets with at least two entries, in map order. -/
def findSharedPairs (c : ArbitrageConfig) (exchangeData : List ExchangeData) :
    List SharedPairInfo :=
  (buildPairMap c exchangeData).filterMap fun entry =>
    if 2 ≤ entry.2.length then some ⟨entry.1, entry.2⟩ else none

/-- `Promise.all` over already-settled promises: rejects if any member
rejects, otherwise resolves to the list of values. -/
def promiseAll {α : Type} : List (Except Unit α) → Except Unit (List α)
  | [] => .ok []
  | .error e :: _ => .error e
  | .ok a :: rest => (promiseAll rest).map (a :: ·)

/-- The `results.forEach((ticker, index) => { if (ticker)
validTickers.set(name, ticker) })` loop of `_enrichSinglePairWithTickers`. -/
def collectValidTickers (entries : List (String × Option StandardTicker)) :
    List (String × StandardTicker) :=
  entries.foldl
    (fun m e =>
      match e.2 with
      | some t => mapSet m e.1 t
      | none => m)
    []

/-- `ArbitrageService._enrichSinglePairWithTickers`: fetch one ticker per
member concurrently; a missing repository or any rejected fetch lands in the
`catch` and discards the group; fulfilled `null` tickers are skipped; the
group survives only with at least two valid tickers. -/
def enrichSinglePairWithTickers (repos : ExchangeRepos)
    (sharedPair : SharedPairInfo) : Option EnrichedPair :=
  if sharedPair.exchanges.all (fun e => repos.hasRepo e.1) then
    match promiseAll (sharedPair.exchanges.map fun e => repos.fetchTicker e.1 e.2) with
    | .error _ => none
    | .ok results =>
      let validTickers :=
        collectValidTickers ((sharedPair.exchanges.map Prod.fst).zip results)
      if 2 ≤ validTickers.length then
        some ⟨sharedPair.symbol, sharedPair.exchanges, validTickers⟩
      else none
  else none

/-- Fallback entry used to express indexing `tickers[i]` of the double loop
(only ever read at indices below the length). -/
def defaultEntry : String × StandardTicker :=
  ("", { exchange := "", price := 0, bid := 0, ask := 0 })

/-- The body of the double loop of `_findOpportunitiesInSinglePair` for one
ordered pair of entries: emits an opportunity when `buy.ask > 0`,
`sell.bid > buy.ask` and the gross spread reaches the configured minimum. -/
def candidateOpportunity (c : ArbitrageConfig) (symbol : String)
    (buy sell : String × StandardTicker) : Option Opportunity :=
  if buy.2.ask > 0 ∧ sell.2.bid > buy.2.ask then
    let grossProfitPercentage := (sell.2.bid - buy.2.ask) / buy.2.ask * 100
    if grossProfitPercentage ≥ c.minProfitPercentage then
      some
        { pair := symbol
          profitPercentage := roundTo4 grossProfitPercentage
          buyAt := { exchange := buy.1, price := buy.2.ask }
          sellAt := { exchange := sell.1, price := sell.2.bid }
          validation := none }
    else none
  else none

/-- `ArbitrageService._findOpportunitiesInSinglePair`: the `i`/`j` double loop
over the ticker entries, skipping the diagonal. -/
def findOpportunitiesInSinglePair (c : ArbitrageConfig) (ep : EnrichedPair) :
    List Opportunity :=
  let tickers := ep.tickers
  if tickers.length < 2 then []
  else
    (List.range tickers.length).flatMap fun i =>
      (List.range tickers.length).filterMap fun j =>
        if i = j then none
        else
          candidateOpportunity c ep.symbol (tickers.getD i defaultEntry)
            (tickers.getD j defaultEntry)

/-- The base asset of an opportunity:
first component of `opportunity.pair.split("/")` (empty when absent). -/
def baseAssetOf (opp : Opportunity) : String :=
  (opp.pair.splitOn "/").getD 0 ""

/-- The quote asset of an opportunity: second component of the split
(the JS `undefined` of a missing component is modelled as `""`). -/
def quoteAssetOf (opp : Opportunity) : String :=
  (opp.pair.splitOn "/").getD 1 ""

/-- `ArbitrageService._validateSingleOpportunity`: look up the four asset
statuses (any rejection, or a missing repository, lands in the `catch` and
drops the candidate), then attach the validation record, defaulting
capability flags to `false` for `null` statuses. -/
def validateSingleOpportunity (repos : ExchangeRepos) (opp : Opportunity) :
    Option Opportunity :=
  if repos.hasRepo opp.buyAt.exchange && repos.hasRepo opp.sellAt.exchange then
    match repos.getAssetStatus opp.buyAt.exchange (baseAssetOf opp),
        repos.getAssetStatus opp.buyAt.exchange (quoteAssetOf opp),
        repos.getAssetStatus opp.sellAt.exchange (baseAssetOf opp),
        repos.getAssetStatus opp.sellAt.exchange (quoteAssetOf opp) with
    | .ok buyBaseStatus, .ok buyQuoteStatus, .ok sellBaseStatus, .ok sellQuoteStatus =>
      let canWithdrawFromBuyExchange := (buyBaseStatus.map (·.canWithdraw)).getD false
      let canDepositOnSellExchange := (sellBaseStatus.map (·.canDeposit)).getD false
      let commonNetworks :=
        ((buyBaseStatus.map (·.withdrawNetworks)).getD []).filter fun net =>
          ((sellBaseStatus.map (·.depositNetworks)).getD []).contains net
      let isPathExecutable :=
        canWithdrawFromBuyExchange && canDepositOnSellExchange &&
          decide (0 < commonNetworks.length)
      some
        { opp with
          validation := some
            { isExecutable := isPathExecutable
              commonNetworks := commonNetworks
              buyExchange :=
                { canWithdraw := canWithdrawFromBuyExchange
                  withdrawNetworks := buyBaseStatus.map (·.withdrawNetworks) }
              sellExchange :=
                { canDeposit := canDepositOnSellExchange
                  depositNetworks := sellBaseStatus.map (·.depositNetworks) }
              baseAssetDetails :=
                { buyExchange := buyBaseStatus.bind (·.assetInfo)
                  sellExchange := sellBaseStatus.bind (·.assetInfo) }
              quoteAssetDetails :=
                { buyExchange := buyQuoteStatus.bind (·.assetInfo)
                  sellExchange := sellQuoteStatus.bind (·.assetInfo) } } }
    | _, _, _, _ => none
  else none

/-- Observable events of one `streamOpportunities` run: a yielded
opportunity, or the fixed `await this.delay(30)` pause. -/
inductive PipelineEvent where
  | yielded (opp : Opportunity)
  | delayed (ms : ℕ)
deriving DecidableEq

/-- Whether an event is the inter-group pause. -/
def PipelineEvent.isDelay : PipelineEvent → Bool
  | .delayed _ => true
  | .yielded _ => false

/-- The loop body of `streamOpportunities` for one shared pair: `continue`
(no events) when enrichment fails or no candidate is found; otherwise yield
the validated candidates in order and then pause for 30 ms. -/
def processSharedPair (repos : ExchangeRepos) (c : ArbitrageConfig)
    (sharedPair : SharedPairInfo) : List PipelineEvent :=
  match enrichSinglePairWithTickers repos sharedPair with
  | none => []
  | some enrichedPair =>
    let priceOpportunities := findOpportunitiesInSinglePair c enrichedPair
    if priceOpportunities.length = 0 then []
    else
      ((priceOpportunities.filterMap
          (validateSingleOpportunity repos)).map .yielded) ++ [.delayed 30]

/-- `ArbitrageService.streamOpportunities` as its trace of events, one group
at a time in input order. -/
def streamOpportunities (repos : ExchangeRepos) (c : ArbitrageConfig) :
    List SharedPairInfo → List PipelineEvent
  | [] => []
  | sharedPair :: rest =>
    processSharedPair repos c sharedPair ++ streamOpportunities repos c rest

/-- The opportunities of a trace, in order. -/
def yieldedOpps (events : List PipelineEvent) : List Opportunity :=
  events.filterMap fun e =>
    match e with
    | .yielded opp => some opp
    | .delayed _ => none

/-- The value of a fulfilled promise, `none` for a rejected one (used to
describe the enricher's behaviour on runs without rejections). -/
def okOrNone {β : Type} : Except Unit (Option β) → Option β
  | .ok v => v
  | .error _ => none

/-- The per-source usable tickers of a group: one entry per member whose
fetch fulfilled with a ticker, in member order. -/
def usableTickers (repos : ExchangeRepos) (sp : SharedPairInfo) :
    List (String × StandardTicker) :=
  sp.exchanges.filterMap fun e =>
    (okOrNone (repos.fetchTicker e.1 e.2)).map fun t => (e.1, t)

/-- Whether one group makes the controller pause afterwards: enrichment
succeeded and the spread detector found at least one candidate. -/
def groupHasCandidates (repos : ExchangeRepos) (c : ArbitrageConfig)
    (sp : SharedPairInfo) : Bool :=
  match enrichSinglePairWithTickers repos sp with
  | none => false
  | some ep => !(findOpportunitiesInSinglePair c ep).isEmpty

/-- The candidates the spread detector produces for one shared pair (empty
when enrichment discards the group). -/
def groupCandidates (repos : ExchangeRepos) (c : ArbitrageConfig)
    (sp : SharedPairInfo) : List Opportunity :=
  match enrichSinglePairWithTickers repos sp with
  | none => []
  | some ep => findOpportunitiesInSinglePair c ep

/-- Configuration of the C1 example run: threshold 0.00033 percent. -/
def cfgC1 : ArbitrageConfig := ⟨33/100000, none⟩

/-- Buy-side ticker of the C1 example: ask 3. -/
def tickerC1X : StandardTicker := ⟨"X", 3, 3, 3⟩

/-- Sell-side ticker of the C1 example: bid 3.00001. -/
def tickerC1Y : StandardTicker := ⟨"Y", 3, 300001/100000, 4⟩

/-- Enriched group of the C1 example. -/
def epC1 : EnrichedPair := ⟨"AAA/USDT", [], [("X", tickerC1X), ("Y", tickerC1Y)]⟩

/-- The one opportunity the detector emits on `epC1`: the gross spread is
1/3000 percent, stored rounded to 0.0003 percent. -/
def oppC1 : Opportunity :=
  ⟨"AAA/USDT", 3/10000, ⟨"X", 3⟩, ⟨"Y", 300001/100000⟩, none⟩

/-- Configuration of the C3 example run: threshold 0 percent. -/
def cfgC3 : ArbitrageConfig := ⟨0, none⟩

/-- Tickers of the C3 example: both exchanges quote ask = bid = 100. -/
def tickerC3X : StandardTicker := ⟨"X", 100, 100, 100⟩

/-- Second ticker of the C3 example. -/
def tickerC3Y : StandardTicker := ⟨"Y", 100, 100, 100⟩

/-- Enriched group of the C3 example. -/
def epC3 : EnrichedPair := ⟨"BBB/USDT", [], [("X", tickerC3X), ("Y", tickerC3Y)]⟩

/-- Configuration used by the C3 witness (scenario A): threshold 0.5. -/
def cfgC3W : ArbitrageConfig := ⟨1/2, none⟩

/-- Witness tickers: X quotes ask 100 / bid 99.5. -/
def tickerC3WX : StandardTicker := ⟨"X", 100, 199/2, 100⟩

/-- Witness tickers: Y quotes ask 105 / bid 103. -/
def tickerC3WY : StandardTicker := ⟨"Y", 103, 103, 105⟩

/-- Enriched group of the C3 witness. -/
def epC3W : EnrichedPair := ⟨"AAA/USDT", [], [("X", tickerC3WX), ("Y", tickerC3WY)]⟩

/-- Listing of symbol AAA/USDT on exchange X (C10 example). -/
def pairC10X : StandardPair := ⟨"AAA/USDT", "AAA", "USDT", "X"⟩

/-- Listing of symbol AAA/USDT on exchange Y (C10 example). -/
def pairC10Y : StandardPair := ⟨"AAA/USDT", "AAA", "USDT", "Y"⟩

/-- Ticker served for X in the C10 example. -/
def tickC10X : StandardTicker := ⟨"X", 100, 199/2, 100⟩

/-- Ticker served for Y in the C10 example. -/
def tickC10Y : StandardTicker := ⟨"Y", 103, 103, 105⟩

/-- Repositories of the C10 example: every fetch fulfills with a ticker. -/
def reposC10 : ExchangeRepos where
  hasRepo := fun _ => true
  fetchTicker := fun name _ =>
    .ok (some (if name = "X" then tickC10X else tickC10Y))
  getAssetStatus := fun _ _ => .ok none

/-- Shared pair fed to enrichment in the C10 example. -/
def spC10 : SharedPairInfo := ⟨"AAA/USDT", [("X", pairC10X), ("Y", pairC10Y)]⟩

/-- The enriched pair produced on `spC10`. -/
def epC10 : EnrichedPair :=
  ⟨"AAA/USDT", [("X", pairC10X), ("Y", pairC10Y)], [("X", tickC10X), ("Y", tickC10Y)]⟩

/-- Configuration of the C10 example run. -/
def cfgC10 : ArbitrageConfig := ⟨1/2, none⟩

/-- The opportunity detected in the C10 example: buy on X at 100, sell on Y
at 103. -/
def oppC10 : Opportunity := ⟨"AAA/USDT", 3, ⟨"X", 100⟩, ⟨"Y", 103⟩, none⟩

/-- Listing of symbol CCC/USDT on exchange A (C4 example). -/
def pairC4A : StandardPair := ⟨"CCC/USDT", "CCC", "USDT", "A"⟩

/-- Listing of symbol CCC/USDT on exchange B (C4 example). -/
def pairC4B : StandardPair := ⟨"CCC/USDT", "CCC", "USDT", "B"⟩

/-- Listing of symbol CCC/USDT on exchange C (C4 example). -/
def pairC4C : StandardPair := ⟨"CCC/USDT", "CCC", "USDT", "C"⟩

/-- Usable ticker served by exchange A in the C4 example. -/
def tickC4A : StandardTicker := ⟨"A", 100, 99, 100⟩

/-- Usable ticker served by exchange C in the C4 example. -/
def tickC4C : StandardTicker := ⟨"C", 103, 103, 105⟩

/-- Repositories of the C4 counterexample: exchange B's ticker fetch always
rejects, exchanges A and C fulfill with usable tickers. -/
def reposC4 : ExchangeRepos where
  hasRepo := fun _ => true
  fetchTicker := fun name _ =>
    if name = "B" then .error ()
    else .ok (some (if name = "A" then tickC4A else tickC4C))
  getAssetStatus := fun _ _ => .ok none

/-- Shared pair of the C4 counterexample: three member exchanges. -/
def spC4 : SharedPairInfo :=
  ⟨"CCC/USDT", [("A", pairC4A), ("B", pairC4B), ("C", pairC4C)]⟩

/-- Repositories of the C4 witness: exchange B's fetch fulfills with `null`,
exchanges A and C fulfill with usable tickers. -/
def reposC4W : ExchangeRepos where
  hasRepo := fun _ => true
  fetchTicker := fun name _ =>
    if name = "B" then .ok none
    else .ok (some (if name = "A" then tickC4A else tickC4C))
  getAssetStatus := fun _ _ => .ok none

/-- The enriched pair of the C4 witness: B is excluded, A and C are kept. -/
def epC4W : EnrichedPair :=
  ⟨"CCC/USDT", [("A", pairC4A), ("B", pairC4B), ("C", pairC4C)],
    [("A", tickC4A), ("C", tickC4C)]⟩

/-- Repositories of the C8 counterexample (never actually consulted, since
both groups have no members). -/
def reposC8 : ExchangeRepos where
  hasRepo := fun _ => true
  fetchTicker := fun _ _ => .ok none
  getAssetStatus := fun _ _ => .ok none

/-- Configuration of the C8 counterexample run. -/
def cfgC8 : ArbitrageConfig := ⟨1, none⟩

/-- First group of the C8 counterexample: no members, so enrichment
discards it. -/
def spC8a : SharedPairInfo := ⟨"AAA/USDT", []⟩

/-- Second group of the C8 counterexample. -/
def spC8b : SharedPairInfo := ⟨"BBB/USDT", []⟩

/-- The validation record the validator builds from four fulfilled status
lookups (buy base, buy quote, sell base, sell quote), mirroring the record
literal inside `_validateSingleOpportunity`. -/
def builtValidation (b1 q1 s1 q2 : Option AssetStatus) : OpportunityValidation where
  isExecutable :=
    ((b1.map (·.canWithdraw)).getD false && (s1.map (·.canDeposit)).getD false) &&
      decide (0 < (((b1.map (·.withdrawNetworks)).getD []).filter
        (fun net => ((s1.map (·.depositNetworks)).getD []).contains net)).length)
  commonNetworks := ((b1.map (·.withdrawNetworks)).getD []).filter
    (fun net => ((s1.map (·.depositNetworks)).getD []).contains net)
  buyExchange := ⟨(b1.map (·.canWithdraw)).getD false, b1.map (·.withdrawNetworks)⟩
  sellExchange := ⟨(s1.map (·.canDeposit)).getD false, s1.map (·.depositNetworks)⟩
  baseAssetDetails := ⟨b1.bind (·.assetInfo), s1.bind (·.assetInfo)⟩
  quoteAssetDetails := ⟨q1.bind (·.assetInfo), q2.bind (·.assetInfo)⟩

/-- Base-asset status on exchange X in the C2 example (scenario D):
withdrawable over ERC20. -/
def statusC2X : AssetStatus := ⟨false, true, [], ["ERC20"], none⟩

/-- Base-asset status on exchange Y in the C2 example: depositable over
ERC20 and TRC20. -/
def statusC2Y : AssetStatus := ⟨true, false, ["ERC20", "TRC20"], [], none⟩

/-- Repositories of the C2 example: each exchange reports its status for
every asset. -/
def reposC2 : ExchangeRepos where
  hasRepo := fun _ => true
  fetchTicker := fun _ _ => .ok none
  getAssetStatus := fun name _ =>
    .ok (some (if name = "X" then statusC2X else statusC2Y))

/-- Candidate opportunity validated in the C2 example. -/
def oppC2 : Opportunity := ⟨"AAA/USDT", 3, ⟨"X", 100⟩, ⟨"Y", 103⟩, none⟩

/-- The validation record the validator attaches in the C2 example. -/
def validationC2 : OpportunityValidation :=
  ⟨true, ["ERC20"], ⟨true, some ["ERC20"]⟩, ⟨true, some ["ERC20", "TRC20"]⟩,
    ⟨none, none⟩, ⟨none, none⟩⟩

/-- The validated opportunity of the C2 example. -/
def voppC2 : Opportunity :=
  ⟨"AAA/USDT", 3, ⟨"X", 100⟩, ⟨"Y", 103⟩, some validationC2⟩

/-- Repositories of the C5 witness: every asset-status lookup rejects. -/
def reposC5 : ExchangeRepos where
  hasRepo := fun _ => true
  fetchTicker := fun _ _ => .ok none
  getAssetStatus := fun _ _ => .error ()

/-- Candidate opportunity of the C5 witness. -/
def oppC5 : Opportunity := ⟨"AAA/USDT", 3, ⟨"X", 100⟩, ⟨"Y", 103⟩, none⟩

/-- The traversal order of `findSharedPairs`: all `(exchangeName, pair)`
entries surviving the quote filter, exchange by exchange and, within an
exchange, in listing order. -/
def itemsOf (c : ArbitrageConfig) (data : List ExchangeData) :
    List (String × StandardPair) :=
  data.flatMap fun ex => (ex.pairs.filter (keepPair c)).map fun p => (ex.name, p)

/-- The member entries of one symbol: the filter-surviving entries listing
that symbol, in traversal order. -/
def entriesFor (c : ArbitrageConfig) (data : List ExchangeData) (sym : String) :
    List (String × StandardPair) :=
  (itemsOf c data).filter fun e => decide (e.2.symbol = sym)

/-- The grouping loop as a fold over the flattened traversal entries. -/
def pushItems (m : List (String × List (String × StandardPair)))
    (items : List (String × StandardPair)) :
    List (String × List (String × StandardPair)) :=
  items.foldl (fun m e => mapPush m e.2.symbol e) m

/-- The bucket of a key in an association-list map (empty for an absent
key). -/
def valueAt {α : Type} (m : List (String × List α)) (k : String) : List α :=
  match m.find? (fun e => decide (e.1 = k)) with
  | some e => e.2
  | none => []

/-- First-occurrence deduplication, the iteration order of a JS `Map`
populated by repeated `set` calls. -/
def firstDedup (l : List String) : List String :=
  l.foldl (fun acc s => if s ∈ acc then acc else acc ++ [s]) []

/-- The symbols of the filter-surviving entries, in traversal order. -/
def allListedSymbols (c : ArbitrageConfig) (data : List ExchangeData) :
    List String :=
  (itemsOf c data).map fun e => e.2.symbol

/-- Pair listed twice by the same exchange in the C6 counterexample. -/
def pairC6dup : StandardPair := ⟨"DDD/USDT", "DDD", "USDT", "X"⟩

/-- Exchange data of the C6 counterexample: one exchange listing the same
symbol twice. -/
def dataC6 : List ExchangeData := [⟨"X", [pairC6dup, pairC6dup]⟩]

/-- Configuration of the C6 examples: no quote filter. -/
def cfgC6 : ArbitrageConfig := ⟨1, none⟩

/-- The group `findSharedPairs` emits on `dataC6`: both members stem from
the single exchange X. -/
def gC6 : SharedPairInfo := ⟨"DDD/USDT", [("X", pairC6dup), ("X", pairC6dup)]⟩

/-- Listing of AAA/USDT on exchange X (C6 witness). -/
def pairC6WX : StandardPair := ⟨"AAA/USDT", "AAA", "USDT", "X"⟩

/-- Listing of AAA/USDT on exchange Y (C6 witness). -/
def pairC6WY : StandardPair := ⟨"AAA/USDT", "AAA", "USDT", "Y"⟩

/-- Exchange data of the C6 witness: two exchanges sharing one symbol. -/
def dataC6W : List ExchangeData := [⟨"X", [pairC6WX]⟩, ⟨"Y", [pairC6WY]⟩]

/-- The shared group of the C6 witness. -/
def gC6W : SharedPairInfo := ⟨"AAA/USDT", [("X", pairC6WX), ("Y", pairC6WY)]⟩

/-- Configuration of the C7 witness: quote filter allows only USDT. -/
def cfgC7 : ArbitrageConfig := ⟨1, some ["USDT"]⟩

/-- Listing of AAA/USDT on exchange X (C7 witness). -/
def pairC7XT : StandardPair := ⟨"AAA/USDT", "AAA", "USDT", "X"⟩

/-- Listing of AAA/USDC on exchange X (C7 witness): filtered out. -/
def pairC7XC : StandardPair := ⟨"AAA/USDC", "AAA", "USDC", "X"⟩

/-- Listing of AAA/USDT on exchange Y (C7 witness). -/
def pairC7YT : StandardPair := ⟨"AAA/USDT", "AAA", "USDT", "Y"⟩

/-- Listing of AAA/USDC on exchange Y (C7 witness): filtered out. -/
def pairC7YC : StandardPair := ⟨"AAA/USDC", "AAA", "USDC", "Y"⟩

/-- Exchange data of the C7 witness: both exchanges list a USDT- and a
USDC-quoted pair. -/
def dataC7 : List ExchangeData :=
  [⟨"X", [pairC7XT, pairC7XC]⟩, ⟨"Y", [pairC7YT, pairC7YC]⟩]

/-- The only shared group of the C7 witness: the USDT-quoted symbol. -/
def gC7 : SharedPairInfo := ⟨"AAA/USDT", [("X", pairC7XT), ("Y", pairC7YT)]⟩

/-- Destructuring of the loop body: it emits exactly when the buy ask is
positive, the sell bid strictly exceeds it, and the gross spread reaches the
configured threshold; the emitted record stores the rounded spread. -/
theorem candidateOpportunity_eq_some {c : ArbitrageConfig} {symbol : String}
    {buy sell : String × StandardTicker} {opp : Opportunity} :
    candidateOpportunity c symbol buy sell = some opp ↔
      0 < buy.2.ask ∧ buy.2.ask < sell.2.bid ∧
        c.minProfitPercentage ≤ (sell.2.bid - buy.2.ask) / buy.2.ask * 100 ∧
        opp =
          { pair := symbol
            profitPercentage := roundTo4 ((sell.2.bid - buy.2.ask) / buy.2.ask * 100)
            buyAt := { exchange := buy.1, price := buy.2.ask }
            sellAt := { exchange := sell.1, price := sell.2.bid }
            validation := none } := by
  simp only [candidateOpportunity]
  split_ifs with h1 h2
  · constructor
    · intro h
      injection h with h
      exact ⟨h1.1, h1.2, h2, h.symm⟩
    · intro h
      rw [h.2.2.2]
  · constructor
    · intro h
      simp at h
    · intro h
      exact absurd h.2.2.1 h2
  · constructor
    · intro h
      simp at h
    · intro h
      exact absurd ⟨h.1, h.2.1⟩ h1

/-- Membership in the detector output is existence of an off-diagonal index
pair whose loop body emits the opportunity. -/
theorem mem_findOpportunitiesInSinglePair {c : ArbitrageConfig}
    {ep : EnrichedPair} {opp : Opportunity} :
    opp ∈ findOpportunitiesInSinglePair c ep ↔
      ∃ i, i < ep.tickers.length ∧ ∃ j, j < ep.tickers.length ∧ i ≠ j ∧
        candidateOpportunity c ep.symbol (ep.tickers.getD i defaultEntry)
          (ep.tickers.getD j defaultEntry) = some opp := by
  simp only [findOpportunitiesInSinglePair]
  by_cases h2 : ep.tickers.length < 2
  · simp only [if_pos h2, List.not_mem_nil, false_iff]
    rintro ⟨i, hi, j, hj, hij, -⟩
    omega
  · simp only [if_neg h2, List.mem_flatMap, List.mem_filterMap, List.mem_range]
    constructor
    · rintro ⟨i, hi, j, hj, hcand⟩
      by_cases hij : i = j
      · rw [if_pos hij] at hcand
        exact Option.noConfusion hcand
      · rw [if_neg hij] at hcand
        exact ⟨i, hi, j, hj, hij, hcand⟩
    · rintro ⟨i, hi, j, hj, hij, hcand⟩
      refine ⟨i, hi, j, hj, ?_⟩
      rw [if_neg hij]
      exact hcand

/-- Rounding to 4 decimals loses less than half of one unit in the last
place. -/
theorem roundTo4_gt (q : ℚ) : q - 1/20000 < roundTo4 q := by
  have h := Int.sub_one_lt_floor (q * 10000 + 1/2)
  rw [roundTo4]
  linarith

/-- C1 (amended): every opportunity emitted by the spread detector has
`sellAt.price > buyAt.price`, stores the gross spread rounded to 4 decimal
places, and the gross (pre-rounding) spread clears `minProfitPercentage`;
consequently the stored value exceeds `minProfitPercentage - 1/20000`, but
(unlike the original claim) it may itself fall below the threshold. -/
theorem spread_profit_invariants (c : ArbitrageConfig) (ep : EnrichedPair)
    (opp : Opportunity) (h : opp ∈ findOpportunitiesInSinglePair c ep) :
    opp.buyAt.price < opp.sellAt.price ∧
      opp.profitPercentage =
        roundTo4 ((opp.sellAt.price - opp.buyAt.price) / opp.buyAt.price * 100) ∧
      c.minProfitPercentage ≤
        (opp.sellAt.price - opp.buyAt.price) / opp.buyAt.price * 100 ∧
      c.minProfitPercentage - 1/20000 < opp.profitPercentage := by
  obtain ⟨i, hi, j, hj, hij, hcand⟩ := mem_findOpportunitiesInSinglePair.mp h
  obtain ⟨h0, hlt, hmin, rfl⟩ := candidateOpportunity_eq_some.mp hcand
  refine ⟨hlt, rfl, hmin, ?_⟩
  have hr := roundTo4_gt
    (((ep.tickers.getD j defaultEntry).2.bid - (ep.tickers.getD i defaultEntry).2.ask) /
      (ep.tickers.getD i defaultEntry).2.ask * 100)
  dsimp only
  linarith

/-- C1 witness: the amended invariants hold for the opportunity emitted in
the concrete C1 run. -/
theorem spread_profit_invariants_witness :
    oppC1.buyAt.price < oppC1.sellAt.price ∧
      oppC1.profitPercentage =
        roundTo4 ((oppC1.sellAt.price - oppC1.buyAt.price) / oppC1.buyAt.price * 100) ∧
      cfgC1.minProfitPercentage ≤
        (oppC1.sellAt.price - oppC1.buyAt.price) / oppC1.buyAt.price * 100 ∧
      cfgC1.minProfitPercentage - 1/20000 < oppC1.profitPercentage :=
  spread_profit_invariants cfgC1 epC1 oppC1 (by
    norm_num [findOpportunitiesInSinglePair, candidateOpportunity, roundTo4, cfgC1, epC1,
      oppC1, tickerC1X, tickerC1Y, defaultEntry, List.range_succ, List.flatMap_cons,
      List.flatMap_nil, List.filterMap_cons, List.filterMap_nil, List.getD])

/-- C1 counterexample: with threshold 0.00033 and a gross spread of 1/3000
(about 0.000333), the detector emits one opportunity whose stored rounded
`profitPercentage` is 0.0003, strictly below `minProfitPercentage` — the
threshold is checked before rounding, so the stored value can undershoot it. -/
theorem stored_profit_below_threshold_example :
    findOpportunitiesInSinglePair cfgC1 epC1 = [oppC1] ∧
      oppC1.profitPercentage < cfgC1.minProfitPercentage := by
  constructor
  · norm_num [findOpportunitiesInSinglePair, candidateOpportunity, roundTo4, cfgC1, epC1,
      oppC1, tickerC1X, tickerC1Y, defaultEntry, List.range_succ, List.flatMap_cons,
      List.flatMap_nil, List.filterMap_cons, List.filterMap_nil, List.getD]
  · norm_num [oppC1, cfgC1]

/-- C3 (amended): for every ordered off-diagonal index pair whose buy ask is
positive, whose sell bid strictly exceeds the buy ask, and whose gross spread
reaches the threshold, the corresponding opportunity is emitted; both
directions are covered independently by this statement. Unlike the original
claim, `sellTicker.bid > buyTicker.ask` is a further skip condition (it can
reject candidates only when `minProfitPercentage ≤ 0`). -/
theorem spread_detector_completeness (c : ArbitrageConfig) (ep : EnrichedPair)
    (i j : ℕ) (hi : i < ep.tickers.length) (hj : j < ep.tickers.length)
    (hij : i ≠ j)
    (hask : 0 < (ep.tickers.getD i defaultEntry).2.ask)
    (hbid : (ep.tickers.getD i defaultEntry).2.ask <
      (ep.tickers.getD j defaultEntry).2.bid)
    (hmin : c.minProfitPercentage ≤
      ((ep.tickers.getD j defaultEntry).2.bid -
          (ep.tickers.getD i defaultEntry).2.ask) /
        (ep.tickers.getD i defaultEntry).2.ask * 100) :
    { pair := ep.symbol
      profitPercentage := roundTo4
        (((ep.tickers.getD j defaultEntry).2.bid -
            (ep.tickers.getD i defaultEntry).2.ask) /
          (ep.tickers.getD i defaultEntry).2.ask * 100)
      buyAt := { exchange := (ep.tickers.getD i defaultEntry).1
                 price := (ep.tickers.getD i defaultEntry).2.ask }
      sellAt := { exchange := (ep.tickers.getD j defaultEntry).1
                  price := (ep.tickers.getD j defaultEntry).2.bid }
      validation := none } ∈ findOpportunitiesInSinglePair c ep := by
  refine mem_findOpportunitiesInSinglePair.mpr ⟨i, hi, j, hj, hij, ?_⟩
  exact candidateOpportunity_eq_some.mpr ⟨hask, hbid, hmin, rfl⟩

/-- C3 witness: in scenario A (X ask 100, Y bid 103, threshold 0.5) the
buy-on-X sell-on-Y opportunity is emitted. -/
theorem spread_detector_completeness_witness :
    { pair := epC3W.symbol
      profitPercentage := roundTo4
        (((epC3W.tickers.getD 1 defaultEntry).2.bid -
            (epC3W.tickers.getD 0 defaultEntry).2.ask) /
          (epC3W.tickers.getD 0 defaultEntry).2.ask * 100)
      buyAt := { exchange := (epC3W.tickers.getD 0 defaultEntry).1
                 price := (epC3W.tickers.getD 0 defaultEntry).2.ask }
      sellAt := { exchange := (epC3W.tickers.getD 1 defaultEntry).1
                  price := (epC3W.tickers.getD 1 defaultEntry).2.bid }
      validation := none } ∈ findOpportunitiesInSinglePair cfgC3W epC3W :=
  spread_detector_completeness cfgC3W epC3W 0 1
    (by norm_num [epC3W]) (by norm_num [epC3W]) (by norm_num)
    (by norm_num [epC3W, tickerC3WX, tickerC3WY, defaultEntry, List.getD])
    (by norm_num [epC3W, tickerC3WX, tickerC3WY, defaultEntry, List.getD])
    (by norm_num [epC3W, cfgC3W, tickerC3WX, tickerC3WY, defaultEntry, List.getD])

/-- C3 counterexample: with threshold 0 and identical quotes (ask = bid =
100) on both exchanges, the buy ask is positive and the gross spread 0
reaches the threshold, yet no opportunity is emitted — the detector also
requires `sellTicker.bid > buyTicker.ask`, a skip condition the claim
omits. -/
theorem zero_spread_not_emitted_example :
    0 < (epC3.tickers.getD 0 defaultEntry).2.ask ∧
      cfgC3.minProfitPercentage ≤
        ((epC3.tickers.getD 1 defaultEntry).2.bid -
            (epC3.tickers.getD 0 defaultEntry).2.ask) /
          (epC3.tickers.getD 0 defaultEntry).2.ask * 100 ∧
      findOpportunitiesInSinglePair cfgC3 epC3 = [] := by
  refine ⟨?_, ?_, ?_⟩
  · norm_num [epC3, tickerC3X, defaultEntry, List.getD]
  · norm_num [epC3, cfgC3, tickerC3X, tickerC3Y, defaultEntry, List.getD]
  · norm_num [findOpportunitiesInSinglePair, candidateOpportunity, cfgC3, epC3,
      tickerC3X, tickerC3Y, defaultEntry, List.range_succ, List.flatMap_cons,
      List.flatMap_nil, List.filterMap_cons, List.filterMap_nil, List.getD]

/-- Keys after `mapSet`: unchanged for an existing key, the new key appended
otherwise. -/
theorem mapSet_keys {α : Type} (m : List (String × α)) (k : String) (v : α) :
    (mapSet m k v).map Prod.fst =
      if k ∈ m.map Prod.fst then m.map Prod.fst else m.map Prod.fst ++ [k] := by
  induction m with
  | nil => simp [mapSet]
  | cons hd tl ih =>
    obtain ⟨k1, v1⟩ := hd
    by_cases hk : k1 = k
    · subst hk
      simp [mapSet]
    · have hk2 : ¬ k = k1 := fun h => hk h.symm
      simp only [mapSet, if_neg hk, List.map_cons, ih, List.mem_cons]
      by_cases hmem : k ∈ tl.map Prod.fst
      · simp [hmem, hk2]
      · simp [hmem, hk2]

/-- `mapSet` preserves distinctness of the keys. -/
theorem mapSet_keys_nodup {α : Type} {m : List (String × α)}
    (h : (m.map Prod.fst).Nodup) (k : String) (v : α) :
    ((mapSet m k v).map Prod.fst).Nodup := by
  rw [mapSet_keys]
  split_ifs with hk
  · exact h
  · simp [List.nodup_append, h, hk]

/-- The ticker-collection fold of the enricher keeps its accumulated map's
keys distinct. -/
theorem collectFold_keys_nodup (entries : List (String × Option StandardTicker)) :
    ∀ acc : List (String × StandardTicker), (acc.map Prod.fst).Nodup →
      ((entries.foldl
          (fun m e =>
            match e.2 with
            | some t => mapSet m e.1 t
            | none => m)
          acc).map Prod.fst).Nodup := by
  induction entries with
  | nil =>
    intro acc h
    simpa using h
  | cons e tl ih =>
    intro acc h
    rcases e with ⟨name, t?⟩
    cases t? with
    | none => simpa using ih acc h
    | some t => simpa using ih (mapSet acc name t) (mapSet_keys_nodup h name t)

/-- The ticker map of every enriched pair has pairwise-distinct exchange
names. -/
theorem enrich_tickers_nodup (repos : ExchangeRepos) (sp : SharedPairInfo)
    (ep : EnrichedPair) (h : enrichSinglePairWithTickers repos sp = some ep) :
    (ep.tickers.map Prod.fst).Nodup := by
  unfold enrichSinglePairWithTickers at h
  split_ifs at h
  split at h
  · exact Option.noConfusion h
  · dsimp only at h
    split_ifs at h with hlen
    injection h with h
    subst h
    exact collectFold_keys_nodup _ [] (by simp)

/-- Distinct indices into a list with distinct keys read distinct keys. -/
theorem getD_fst_ne (l : List (String × StandardTicker))
    (h : (l.map Prod.fst).Nodup) {i j : ℕ} (hi : i < l.length)
    (hj : j < l.length) (hij : i ≠ j) :
    (l.getD i defaultEntry).1 ≠ (l.getD j defaultEntry).1 := by
  intro heq
  apply hij
  have hi2 : i < (l.map Prod.fst).length := by simpa using hi
  have hj2 : j < (l.map Prod.fst).length := by simpa using hj
  have heq2 : (l.map Prod.fst).get ⟨i, hi2⟩ = (l.map Prod.fst).get ⟨j, hj2⟩ := by
    simp only [List.get_map]
    simpa [List.getD_eq_getElem, hi, hj] using heq
  have := List.Nodup.get_inj_iff h |>.mp heq2
  simpa using this

/-- C10: every opportunity detected on a group produced by the quote
enricher buys and sells on distinct exchanges: the ticker map is keyed by
exchange name and the detector skips the diagonal. -/
theorem buy_sell_exchanges_distinct (repos : ExchangeRepos)
    (c : ArbitrageConfig) (sp : SharedPairInfo) (ep : EnrichedPair)
    (henr : enrichSinglePairWithTickers repos sp = some ep)
    (opp : Opportunity) (hopp : opp ∈ findOpportunitiesInSinglePair c ep) :
    opp.buyAt.exchange ≠ opp.sellAt.exchange := by
  obtain ⟨i, hi, j, hj, hij, hcand⟩ := mem_findOpportunitiesInSinglePair.mp hopp
  obtain ⟨-, -, -, rfl⟩ := candidateOpportunity_eq_some.mp hcand
  exact getD_fst_ne _ (enrich_tickers_nodup repos sp ep henr) hi hj hij

/-- C10 witness: in the concrete C10 run the detected opportunity buys on X
and sells on Y. -/
theorem buy_sell_exchanges_distinct_witness :
    oppC10.buyAt.exchange ≠ oppC10.sellAt.exchange :=
  buy_sell_exchanges_distinct reposC10 cfgC10 spC10 epC10
    (by
      have h1 : ¬("X" : String) = "Y" := by decide
      have h2 : ¬("Y" : String) = "X" := by decide
      norm_num [enrichSinglePairWithTickers, reposC10, spC10, epC10, promiseAll,
        collectValidTickers, mapSet, pairC10X, pairC10Y, tickC10X, tickC10Y,
        Except.map, if_neg h1, if_neg h2])
    oppC10
    (by
      norm_num [findOpportunitiesInSinglePair, candidateOpportunity, roundTo4,
        cfgC10, epC10, oppC10, tickC10X, tickC10Y, defaultEntry, List.range_succ,
        List.flatMap_cons, List.flatMap_nil, List.filterMap_cons,
        List.filterMap_nil, List.getD])

/-- `Promise.all` over fulfilled promises resolves to their values. -/
theorem promiseAll_ok {β : Type} (l : List (Except Unit (Option β)))
    (h : ∀ x ∈ l, x ≠ .error ()) : promiseAll l = .ok (l.map okOrNone) := by
  induction l with
  | nil => rfl
  | cons x tl ih =>
    cases x with
    | error e =>
      cases e
      exact absurd rfl (h _ (List.mem_cons_self _ _))
    | ok a =>
      rw [List.map_cons]
      simp only [promiseAll, ih fun x hx => h x (List.mem_cons_of_mem _ hx)]
      rfl

/-- Setting a fresh key appends the binding at the end. -/
theorem mapSet_not_mem {α : Type} {m : List (String × α)} {k : String}
    (h : k ∉ m.map Prod.fst) (v : α) : mapSet m k v = m ++ [(k, v)] := by
  induction m with
  | nil => rfl
  | cons hd tl ih =>
    obtain ⟨k1, v1⟩ := hd
    have hk : ¬ k1 = k := by
      intro hk
      exact h (by simp [hk])
    simp only [mapSet, if_neg hk, List.cons_append, List.cons.injEq, true_and]
    exact ih fun hmem => h (by simp [hmem])

/-- On entries with pairwise-distinct names none of which collides with the
accumulator, the ticker-collection fold appends the non-null entries in
order. -/
theorem collectFold_eq_filterMap (entries : List (String × Option StandardTicker)) :
    ∀ acc : List (String × StandardTicker), (entries.map Prod.fst).Nodup →
      (∀ p ∈ entries, p.1 ∉ acc.map Prod.fst) →
      entries.foldl
          (fun m e =>
            match e.2 with
            | some t => mapSet m e.1 t
            | none => m)
          acc =
        acc ++ entries.filterMap fun e => e.2.map fun t => (e.1, t) := by
  induction entries with
  | nil =>
    intro acc _ _
    simp
  | cons e tl ih =>
    intro acc hnodup hacc
    rcases e with ⟨name, t?⟩
    rw [List.map_cons] at hnodup
    obtain ⟨hhead, hnd⟩ := List.nodup_cons.mp hnodup
    cases t? with
    | none =>
      have := ih acc hnd fun p hp => hacc p (List.mem_cons_of_mem _ hp)
      simpa using this
    | some t =>
      have hfresh : name ∉ acc.map Prod.fst := by
        simpa using hacc (name, some t) (List.mem_cons_self _ _)
      have hrest : ∀ p ∈ tl, p.1 ∉ (acc ++ [(name, t)]).map Prod.fst := by
        intro p hp
        simp only [List.map_append, List.mem_append]
        rintro (hmem | hmem)
        · exact hacc p (List.mem_cons_of_mem _ hp) hmem
        · simp only [List.map_cons, List.map_nil, List.mem_singleton] at hmem
          have hp2 : p.1 ∈ tl.map Prod.fst := List.mem_map_of_mem Prod.fst hp
          rw [hmem] at hp2
          exact hhead hp2
      have := ih (acc ++ [(name, t)]) hnd hrest
      simpa [mapSet_not_mem hfresh] using this

/-- C4 (amended): on a run where every member has a registered repository
and every ticker fetch fulfills (possibly with `null`), and member names
are pairwise distinct, a `null` ticker excludes only its own source and the
group survives exactly when at least 2 usable tickers remain, keeping
precisely the usable tickers in member order. (A rejected fetch, unlike
the original claim's reading, discards the whole group — see the
counterexample.) -/
theorem enricher_fulfilled_failopen (repos : ExchangeRepos)
    (sp : SharedPairInfo)
    (hrepo : ∀ e ∈ sp.exchanges, repos.hasRepo e.1 = true)
    (hok : ∀ e ∈ sp.exchanges, repos.fetchTicker e.1 e.2 ≠ .error ())
    (hnodup : (sp.exchanges.map Prod.fst).Nodup) :
    enrichSinglePairWithTickers repos sp =
      if 2 ≤ (usableTickers repos sp).length then
        some ⟨sp.symbol, sp.exchanges, usableTickers repos sp⟩
      else none := by
  unfold enrichSinglePairWithTickers
  rw [if_pos (by rw [List.all_eq_true]; exact hrepo)]
  rw [promiseAll_ok _ (by
    intro x hx
    rw [List.mem_map] at hx
    obtain ⟨e, he, rfl⟩ := hx
    exact hok e he)]
  dsimp only
  rw [List.map_map, List.zip_map']
  rw [collectValidTickers, collectFold_eq_filterMap _ [] (by
      simpa [Function.comp] using hnodup) (by simp)]
  rw [List.nil_append, List.filterMap_map]
  rfl

/-- C4 witness: with B fulfilling `null` and A, C fulfilling usable tickers,
the group survives with exactly A's and C's tickers. -/
theorem enricher_fulfilled_failopen_witness :
    enrichSinglePairWithTickers reposC4W spC4 = some epC4W := by
  have h := enricher_fulfilled_failopen reposC4W spC4
    (by intro e he; rfl)
    (by
      intro e he
      simp only [spC4, List.mem_cons, List.not_mem_nil, or_false] at he
      rcases he with rfl | rfl | rfl <;> simp [reposC4W])
    (by
      have h1 : ¬("A" : String) = "B" := by decide
      have h2 : ¬("A" : String) = "C" := by decide
      have h3 : ¬("B" : String) = "C" := by decide
      simp [spC4, h1, h2, h3])
  rw [h]
  have h1 : ¬("A" : String) = "B" := by decide
  have h2 : ¬("C" : String) = "B" := by decide
  have h3 : ¬("C" : String) = "A" := by decide
  simp [usableTickers, spC4, reposC4W, okOrNone, epC4W, if_neg h1, if_neg h2,
    if_neg h3]

/-- C4 counterexample: exchange B's fetch rejects while A and C fulfill
usable tickers, yet the whole group is discarded — the `Promise.all` +
`catch` structure is fail-closed for rejections, so a failing request does
not merely exclude its own source. -/
theorem enricher_rejection_drops_group_example :
    reposC4.fetchTicker "A" pairC4A = .ok (some tickC4A) ∧
      reposC4.fetchTicker "C" pairC4C = .ok (some tickC4C) ∧
      reposC4.fetchTicker "B" pairC4B = .error () ∧
      enrichSinglePairWithTickers reposC4 spC4 = none := by
  have h1 : ¬("A" : String) = "B" := by decide
  have h2 : ¬("C" : String) = "B" := by decide
  have h3 : ¬("C" : String) = "A" := by decide
  refine ⟨by simp [reposC4, h1], by simp [reposC4, h2, h3], by simp [reposC4], ?_⟩
  simp [enrichSinglePairWithTickers, reposC4, spC4, promiseAll, h1, h2, h3,
    Except.map]

/-- `yieldedOpps` distributes over trace concatenation. -/
theorem yieldedOpps_append (a b : List PipelineEvent) :
    yieldedOpps (a ++ b) = yieldedOpps a ++ yieldedOpps b :=
  List.filterMap_append a b _

/-- The opportunities yielded for one group are the validated survivors of
the detector's candidate list, in candidate order. -/
theorem yieldedOpps_processSharedPair (repos : ExchangeRepos)
    (c : ArbitrageConfig) (sp : SharedPairInfo) :
    yieldedOpps (processSharedPair repos c sp) =
      (groupCandidates repos c sp).filterMap (validateSingleOpportunity repos) := by
  unfold processSharedPair groupCandidates
  cases henr : enrichSinglePairWithTickers repos sp with
  | none => simp [yieldedOpps]
  | some ep =>
    dsimp only
    split_ifs with hlen
    · rw [List.length_eq_zero] at hlen
      simp [hlen, yieldedOpps]
    · rw [yieldedOpps, List.filterMap_append, List.filterMap_map]
      have hc : ((fun e =>
          match e with
          | PipelineEvent.yielded opp => some opp
          | PipelineEvent.delayed _ => none) ∘ PipelineEvent.yielded) =
          some := rfl
      rw [hc, List.filterMap_some]
      simp

/-- C9: the opportunities yielded by a run are exactly, and in order, the
concatenation over the input groups of each group's validated candidates,
which are themselves the spread detector's candidates in its enumeration
order filtered by validation — no reordering happens anywhere in the
pipeline. -/
theorem pipeline_yield_order (repos : ExchangeRepos) (c : ArbitrageConfig)
    (sps : List SharedPairInfo) :
    yieldedOpps (streamOpportunities repos c sps) =
      sps.flatMap fun sp =>
        (groupCandidates repos c sp).filterMap (validateSingleOpportunity repos) := by
  induction sps with
  | nil => rfl
  | cons sp rest ih =>
    rw [streamOpportunities, yieldedOpps_append, yieldedOpps_processSharedPair,
      List.flatMap_cons, ih]

/-- One group contributes one pause exactly when it has candidates. -/
theorem countP_processSharedPair (repos : ExchangeRepos) (c : ArbitrageConfig)
    (sp : SharedPairInfo) :
    (processSharedPair repos c sp).countP PipelineEvent.isDelay =
      if groupHasCandidates repos c sp then 1 else 0 := by
  unfold processSharedPair groupHasCandidates
  cases henr : enrichSinglePairWithTickers repos sp with
  | none => simp
  | some ep =>
    dsimp only
    by_cases hlen : findOpportunitiesInSinglePair c ep = []
    · rw [if_pos (by simp [hlen]), hlen]
      simp
    · rw [if_neg (by simpa [List.length_eq_zero] using hlen)]
      rw [if_pos (by simpa [List.isEmpty_iff] using hlen)]
      rw [List.countP_append, List.countP_map]
      have hc : (PipelineEvent.isDelay ∘ PipelineEvent.yielded) =
          fun _ : Opportunity => false := rfl
      rw [hc]
      simp [PipelineEvent.isDelay]

/-- C8 (amended): the run pauses exactly once after each group whose
enrichment succeeded and whose detector produced at least one candidate —
including such a group in last position; groups discarded at enrichment or
without candidates are advanced past without any delay, contrary to the
original claim. -/
theorem delay_after_candidate_groups (repos : ExchangeRepos)
    (c : ArbitrageConfig) (sps : List SharedPairInfo) :
    (streamOpportunities repos c sps).countP PipelineEvent.isDelay =
      sps.countP fun sp => groupHasCandidates repos c sp := by
  induction sps with
  | nil => rfl
  | cons sp rest ih =>
    rw [streamOpportunities, List.countP_append, countP_processSharedPair,
      List.countP_cons, ih]
    by_cases h : groupHasCandidates repos c sp <;> simp [h] <;> omega

/-- C8 counterexample: a run over two groups, both of which enrichment
discards, produces an empty trace — in particular no inter-group delay
occurs between the first and the second group, though the claim requires
one after every non-last group. -/
theorem no_delay_between_skipped_groups_example :
    streamOpportunities reposC8 cfgC8 [spC8a, spC8b] = [] := by
  simp [streamOpportunities, processSharedPair, enrichSinglePairWithTickers,
    spC8a, spC8b, reposC8, promiseAll, collectValidTickers]

/-- C5: the validator is fail-closed for thrown lookups and fail-open for
absent statuses: with both repositories registered, if any of the 4 status
lookups rejects the candidate is dropped entirely; if all 4 fulfill — even
with `null` — a full validation record is attached, the capability flags
defaulting to `false` for a `null` status. -/
theorem validator_failclosed_on_throw (repos : ExchangeRepos)
    (opp : Opportunity)
    (hbuy : repos.hasRepo opp.buyAt.exchange = true)
    (hsell : repos.hasRepo opp.sellAt.exchange = true) :
    ((repos.getAssetStatus opp.buyAt.exchange (baseAssetOf opp) = .error () ∨
        repos.getAssetStatus opp.buyAt.exchange (quoteAssetOf opp) = .error () ∨
        repos.getAssetStatus opp.sellAt.exchange (baseAssetOf opp) = .error () ∨
        repos.getAssetStatus opp.sellAt.exchange (quoteAssetOf opp) = .error ()) →
      validateSingleOpportunity repos opp = none) ∧
    (∀ b1 q1 s1 q2 : Option AssetStatus,
      repos.getAssetStatus opp.buyAt.exchange (baseAssetOf opp) = .ok b1 →
      repos.getAssetStatus opp.buyAt.exchange (quoteAssetOf opp) = .ok q1 →
      repos.getAssetStatus opp.sellAt.exchange (baseAssetOf opp) = .ok s1 →
      repos.getAssetStatus opp.sellAt.exchange (quoteAssetOf opp) = .ok q2 →
      ∃ v : OpportunityValidation,
        validateSingleOpportunity repos opp =
          some { opp with validation := some v } ∧
        v.buyExchange.canWithdraw = (b1.map (·.canWithdraw)).getD false ∧
        v.sellExchange.canDeposit = (s1.map (·.canDeposit)).getD false) := by
  constructor
  · intro herr
    rw [validateSingleOpportunity, if_pos (by rw [hbuy, hsell]; rfl)]
    split
    · rcases herr with h | h | h | h <;> simp_all
    · rfl
  · intro b1 q1 s1 q2 h1 h2 h3 h4
    refine ⟨builtValidation b1 q1 s1 q2, ?_, rfl, rfl⟩
    rw [validateSingleOpportunity, if_pos (by rw [hbuy, hsell]; rfl),
      h1, h2, h3, h4]
    rfl

/-- C5 witness: with every lookup rejecting, the candidate is dropped. -/
theorem validator_failclosed_on_throw_witness :
    validateSingleOpportunity reposC5 oppC5 = none :=
  (validator_failclosed_on_throw reposC5 oppC5 rfl rfl).1 (Or.inl rfl)

/-- C2: the attached validation's `commonNetworks` is the intersection (as
an order-preserving filter) of the buy source's withdraw networks with the
sell source's deposit networks for the base asset — hence a subset of both —
and `isExecutable` holds exactly when the buy source can withdraw, the sell
source can deposit, and `commonNetworks` is non-empty. -/
theorem validation_networks_executable (repos : ExchangeRepos)
    (opp vopp : Opportunity) (v : OpportunityValidation)
    (bs ss : Option AssetStatus)
    (hv : validateSingleOpportunity repos opp = some vopp)
    (hval : vopp.validation = some v)
    (hbs : repos.getAssetStatus opp.buyAt.exchange (baseAssetOf opp) = .ok bs)
    (hss : repos.getAssetStatus opp.sellAt.exchange (baseAssetOf opp) = .ok ss) :
    v.commonNetworks =
      ((bs.map (·.withdrawNetworks)).getD []).filter
        (fun net => ((ss.map (·.depositNetworks)).getD []).contains net) ∧
    (∀ net, net ∈ v.commonNetworks →
      net ∈ (bs.map (·.withdrawNetworks)).getD [] ∧
      net ∈ (ss.map (·.depositNetworks)).getD []) ∧
    (v.isExecutable = true ↔
      ((bs.map (·.canWithdraw)).getD false = true ∧
        (ss.map (·.canDeposit)).getD false = true ∧
        v.commonNetworks ≠ [])) := by
  rw [validateSingleOpportunity] at hv
  by_cases hrepo :
      (repos.hasRepo opp.buyAt.exchange && repos.hasRepo opp.sellAt.exchange) = true
  · rw [if_pos hrepo] at hv
    cases hq1 : repos.getAssetStatus opp.buyAt.exchange (quoteAssetOf opp) with
    | error e =>
      rw [hbs, hq1, hss] at hv
      cases e
      exact absurd hv (by simp)
    | ok q1 =>
      cases hq2 : repos.getAssetStatus opp.sellAt.exchange (quoteAssetOf opp) with
      | error e =>
        rw [hbs, hq1, hss, hq2] at hv
        cases e
        exact absurd hv (by simp)
      | ok q2 =>
        rw [hbs, hq1, hss, hq2] at hv
        injection hv with hv
        subst hv
        simp only [Option.some.injEq] at hval
        subst hval
        refine ⟨rfl, ?_, ?_⟩
        · intro net hnet
          rw [List.mem_filter] at hnet
          refine ⟨hnet.1, ?_⟩
          simpa using hnet.2
        · simp only [Bool.and_eq_true, decide_eq_true_eq]
          constructor
          · rintro ⟨⟨hw, hd⟩, hlen⟩
            exact ⟨hw, hd, List.length_pos.mp hlen⟩
          · rintro ⟨hw, hd, hne⟩
            exact ⟨⟨hw, hd⟩, List.length_pos.mpr hne⟩
  · rw [if_neg hrepo] at hv
    exact absurd hv (by simp)

/-- C2 witness: in scenario D (buy side withdraws over ERC20, sell side
deposits over ERC20 and TRC20) the common networks are the filter-based
intersection. -/
theorem validation_networks_executable_witness :
    validationC2.commonNetworks =
      (((some statusC2X).map (·.withdrawNetworks)).getD []).filter
        (fun net =>
          (((some statusC2Y).map (·.depositNetworks)).getD []).contains net) :=
  (validation_networks_executable reposC2 oppC2 voppC2 validationC2
    (some statusC2X) (some statusC2Y) rfl rfl rfl rfl).1

/-- Keys after `mapPush`: unchanged for an existing key, the new key
appended otherwise. -/
theorem mapPush_keys {α : Type} (m : List (String × List α)) (k : String)
    (v : α) :
    (mapPush m k v).map Prod.fst =
      if k ∈ m.map Prod.fst then m.map Prod.fst else m.map Prod.fst ++ [k] := by
  induction m with
  | nil => simp [mapPush]
  | cons hd tl ih =>
    obtain ⟨k1, vs⟩ := hd
    by_cases hk : k1 = k
    · subst hk
      simp [mapPush]
    · have hk2 : ¬ k = k1 := fun h => hk h.symm
      simp only [mapPush, if_neg hk, List.map_cons, ih, List.mem_cons]
      by_cases hmem : k ∈ tl.map Prod.fst
      · simp [hmem, hk2]
      · simp [hmem, hk2]

/-- Pushing onto a bucket appends to that bucket. -/
theorem valueAt_mapPush_same {α : Type} (m : List (String × List α))
    (k : String) (v : α) : valueAt (mapPush m k v) k = valueAt m k ++ [v] := by
  induction m with
  | nil => simp [mapPush, valueAt, List.find?]
  | cons hd tl ih =>
    obtain ⟨k1, vs⟩ := hd
    by_cases hk : k1 = k
    · subst hk
      simp [mapPush, valueAt, List.find?]
    · simp only [mapPush, if_neg hk, valueAt, List.find?]
      rw [show (decide (k1 = k)) = false by simp [hk]]
      exact ih

/-- Pushing onto a bucket leaves the other buckets unchanged. -/
theorem valueAt_mapPush_ne {α : Type} (m : List (String × List α))
    {k k2 : String} (h : k2 ≠ k) (v : α) :
    valueAt (mapPush m k v) k2 = valueAt m k2 := by
  have hne : ¬ k = k2 := fun h2 => h h2.symm
  induction m with
  | nil =>
    simp only [mapPush, valueAt, List.find?]
    rw [show (decide (k = k2)) = false by simp [hne]]
  | cons hd tl ih =>
    obtain ⟨k1, vs⟩ := hd
    by_cases hk : k1 = k
    · subst hk
      simp only [mapPush, if_pos rfl, valueAt, List.find?]
      rw [show (decide (k1 = k2)) = false by simp [hne]]
    · simp only [mapPush, if_neg hk, valueAt, List.find?]
      cases hd : decide (k1 = k2) <;> simp [hd] <;> exact ih

/-- An absent key has an empty bucket. -/
theorem valueAt_eq_nil_of_not_mem {α : Type} (m : List (String × List α))
    (k : String) (h : k ∉ m.map Prod.fst) : valueAt m k = [] := by
  induction m with
  | nil => rfl
  | cons hd tl ih =>
    obtain ⟨k1, vs⟩ := hd
    have hk : ¬ k1 = k := fun h2 => h (by simp [h2])
    simp only [valueAt, List.find?]
    rw [show (decide (k1 = k)) = false by simp [hk]]
    exact ih fun h2 => h (by simp [h2])

/-- With pairwise-distinct keys, a member's bucket is its stored value. -/
theorem valueAt_of_mem {α : Type} :
    ∀ m : List (String × List α), (m.map Prod.fst).Nodup →
      ∀ {k : String} {vs : List α}, (k, vs) ∈ m → valueAt m k = vs := by
  intro m
  induction m with
  | nil =>
    intro _ k vs h
    simp at h
  | cons hd tl ih =>
    intro hnd k vs hmem
    obtain ⟨k1, vs1⟩ := hd
    rw [List.map_cons] at hnd
    obtain ⟨hhead, hnd2⟩ := List.nodup_cons.mp hnd
    rcases List.mem_cons.mp hmem with heq | hmem2
    · rw [Prod.mk.injEq] at heq
      obtain ⟨rfl, rfl⟩ := heq
      simp [valueAt, List.find?]
    · by_cases hk : k1 = k
      · subst hk
        exact absurd (List.mem_map_of_mem Prod.fst hmem2) hhead
      · simp only [valueAt, List.find?]
        rw [show (decide (k1 = k)) = false by simp [hk]]
        exact ih hnd2 hmem2

/-- A present key's bucket is stored in the map. -/
theorem mem_of_mem_keys {α : Type} :
    ∀ m : List (String × List α), ∀ k : String, k ∈ m.map Prod.fst →
      (k, valueAt m k) ∈ m := by
  intro m
  induction m with
  | nil =>
    intro k h
    simp at h
  | cons hd tl ih =>
    intro k h
    obtain ⟨k1, vs⟩ := hd
    by_cases hk : k1 = k
    · subst hk
      have hv : valueAt ((k1, vs) :: tl) k1 = vs := by
        simp [valueAt, List.find?]
      rw [hv]
      exact List.mem_cons_self _ _
    · simp only [List.map_cons, List.mem_cons] at h
      rcases h with rfl | h
      · exact absurd rfl hk
      · right
        have := ih k h
        simpa [valueAt, List.find?, show (decide (k1 = k)) = false by simp [hk]]
          using this

/-- Buckets after the grouping fold: the original bucket extended by the
matching traversal entries, in order. -/
theorem valueAt_pushItems (items : List (String × StandardPair)) :
    ∀ m k, valueAt (pushItems m items) k =
      valueAt m k ++ items.filter fun e => decide (e.2.symbol = k) := by
  induction items with
  | nil =>
    intro m k
    simp [pushItems]
  | cons e tl ih =>
    intro m k
    have hstep : pushItems m (e :: tl) = pushItems (mapPush m e.2.symbol e) tl := rfl
    rw [hstep, ih]
    by_cases hk : e.2.symbol = k
    · subst hk
      rw [valueAt_mapPush_same, List.filter_cons]
      simp
    · rw [valueAt_mapPush_ne _ (fun h => hk h.symm), List.filter_cons]
      simp [hk]

/-- Keys after the grouping fold: the first-occurrence insertion fold over
the pushed symbols. -/
theorem pushItems_keys (items : List (String × StandardPair)) :
    ∀ m, (pushItems m items).map Prod.fst =
      (items.map fun e => e.2.symbol).foldl
        (fun acc s => if s ∈ acc then acc else acc ++ [s]) (m.map Prod.fst) := by
  induction items with
  | nil =>
    intro m
    rfl
  | cons e tl ih =>
    intro m
    have hstep : pushItems m (e :: tl) = pushItems (mapPush m e.2.symbol e) tl := rfl
    rw [hstep, ih, List.map_cons, List.foldl_cons, mapPush_keys]

/-- The grouping fold splits over concatenation of traversal entries. -/
theorem pushItems_append (m : List (String × List (String × StandardPair)))
    (a b : List (String × StandardPair)) :
    pushItems m (a ++ b) = pushItems (pushItems m a) b := by
  simp only [pushItems]
  rw [List.foldl_append]

/-- The nested grouping loops equal the fold over the flattened traversal. -/
theorem buildPairMap_eq_pushItems (c : ArbitrageConfig)
    (data : List ExchangeData) :
    buildPairMap c data = pushItems [] (itemsOf c data) := by
  suffices h : ∀ (d : List ExchangeData) (m : List (String × List (String × StandardPair))),
      d.foldl
          (fun m exchange =>
            exchange.pairs.foldl
              (fun m pair =>
                if keepPair c pair then mapPush m pair.symbol (exchange.name, pair)
                else m)
              m)
          m =
        pushItems m (itemsOf c d) by
    exact h data []
  have hinner : ∀ (pairs : List StandardPair) (name : String)
      (m : List (String × List (String × StandardPair))),
      pairs.foldl
          (fun m pair =>
            if keepPair c pair then mapPush m pair.symbol (name, pair) else m)
          m =
        pushItems m ((pairs.filter (keepPair c)).map fun p => (name, p)) := by
    intro pairs name
    induction pairs with
    | nil =>
      intro m
      rfl
    | cons p tl ih =>
      intro m
      rw [List.foldl_cons, List.filter_cons]
      by_cases hp : keepPair c p
      · rw [if_pos hp, if_pos hp, List.map_cons]
        exact ih (mapPush m p.symbol (name, p))
      · rw [if_neg hp, if_neg hp]
        exact ih m
  intro d
  induction d with
  | nil =>
    intro m
    rfl
  | cons ex tl ih =>
    intro m
    rw [List.foldl_cons, hinner, ih]
    have hsplit : itemsOf c (ex :: tl) =
        ((ex.pairs.filter (keepPair c)).map fun p => (ex.name, p)) ++
          itemsOf c tl := by
      rw [itemsOf, itemsOf, List.flatMap_cons]
    rw [hsplit, pushItems_append]

/-- The first-occurrence insertion fold keeps the accumulator duplicate
free. -/
theorem insFold_nodup (l : List String) :
    ∀ acc : List String, acc.Nodup →
      (l.foldl (fun acc s => if s ∈ acc then acc else acc ++ [s]) acc).Nodup := by
  induction l with
  | nil =>
    intro acc h
    simpa using h
  | cons s tl ih =>
    intro acc h
    rw [List.foldl_cons]
    by_cases hs : s ∈ acc
    · rw [if_pos hs]
      exact ih acc h
    · rw [if_neg hs]
      exact ih (acc ++ [s]) (by simp [List.nodup_append, h, hs])

/-- Membership after the first-occurrence insertion fold. -/
theorem insFold_mem (l : List String) :
    ∀ (acc : List String) (x : String),
      x ∈ l.foldl (fun acc s => if s ∈ acc then acc else acc ++ [s]) acc ↔
        x ∈ acc ∨ x ∈ l := by
  induction l with
  | nil =>
    intro acc x
    simp
  | cons s tl ih =>
    intro acc x
    rw [List.foldl_cons]
    by_cases hs : s ∈ acc
    · rw [if_pos hs, ih]
      constructor
      · rintro (h | h)
        · exact Or.inl h
        · exact Or.inr (List.mem_cons_of_mem _ h)
      · rintro (h | h)
        · exact Or.inl h
        · rcases List.mem_cons.mp h with rfl | h
          · exact Or.inl hs
          · exact Or.inr h
    · rw [if_neg hs, ih]
      simp only [List.mem_append, List.mem_singleton, List.mem_cons]
      tauto

/-- Membership in `findSharedPairs` output is membership of a large-enough
bucket in the grouping map. -/
theorem mem_findSharedPairs {c : ArbitrageConfig} {data : List ExchangeData}
    {g : SharedPairInfo} :
    g ∈ findSharedPairs c data ↔
      (g.symbol, g.exchanges) ∈ buildPairMap c data ∧ 2 ≤ g.exchanges.length := by
  rw [findSharedPairs, List.mem_filterMap]
  constructor
  · rintro ⟨entry, hmem, hf⟩
    split_ifs at hf with hlen
    injection hf with hf
    subst hf
    exact ⟨by simpa using hmem, hlen⟩
  · rintro ⟨hmem, hlen⟩
    exact ⟨(g.symbol, g.exchanges), hmem, by rw [if_pos hlen]⟩

/-- The grouping map's keys are pairwise distinct. -/
theorem buildPairMap_keys_nodup (c : ArbitrageConfig)
    (data : List ExchangeData) :
    ((buildPairMap c data).map Prod.fst).Nodup := by
  rw [buildPairMap_eq_pushItems, pushItems_keys]
  exact insFold_nodup _ [] (by simp)

/-- Each symbol's bucket in the grouping map is its traversal entries. -/
theorem valueAt_buildPairMap (c : ArbitrageConfig) (data : List ExchangeData)
    (sym : String) :
    valueAt (buildPairMap c data) sym = entriesFor c data sym := by
  rw [buildPairMap_eq_pushItems, valueAt_pushItems]
  rfl

/-- Projecting the kept buckets to their symbols equals filtering the keys
by bucket size, when keys are pairwise distinct. -/
theorem filterMap_symbols :
    ∀ m : List (String × List (String × StandardPair)),
      (m.map Prod.fst).Nodup →
      (m.filterMap fun entry =>
          if 2 ≤ entry.2.length then
            some (⟨entry.1, entry.2⟩ : SharedPairInfo)
          else none).map (fun g => g.symbol) =
        (m.map Prod.fst).filter fun k => decide (2 ≤ (valueAt m k).length) := by
  intro m
  induction m with
  | nil =>
    intro _
    rfl
  | cons hd tl ih =>
    intro hnd
    obtain ⟨k1, vs⟩ := hd
    rw [List.map_cons] at hnd
    obtain ⟨hhead, hnd2⟩ := List.nodup_cons.mp hnd
    have hv1 : valueAt ((k1, vs) :: tl) k1 = vs := by
      simp [valueAt, List.find?]
    have hvaleq : ∀ k ∈ tl.map Prod.fst,
        valueAt ((k1, vs) :: tl) k = valueAt tl k := by
      intro k hk
      have hne : ¬ k1 = k := fun h => hhead (h ▸ hk)
      have hfind : List.find? (fun e => decide (e.1 = k)) ((k1, vs) :: tl) =
          List.find? (fun e => decide (e.1 = k)) tl :=
        List.find?_cons_of_neg _ (by simp [hne])
      simp only [valueAt, hfind]
    have hvt : ∀ k ∈ tl.map Prod.fst,
        (decide (2 ≤ (valueAt ((k1, vs) :: tl) k).length)) =
          (decide (2 ≤ (valueAt tl k).length)) := by
      intro k hk
      rw [hvaleq k hk]
    rw [List.filterMap_cons, List.map_cons, List.filter_cons,
      List.filter_congr hvt, hv1]
    by_cases hlen : 2 ≤ vs.length
    · rw [if_pos hlen, if_pos (by simpa using hlen), List.map_cons, ih hnd2]
    · rw [if_neg hlen, if_neg (by simpa using hlen), ih hnd2]

/-- C6 (amended): `findSharedPairs` emits exactly the symbols with at least
2 member entries after the quote filter — entries from the same source
count separately, so a source listing a symbol twice can alone produce a
group — with each group carrying all of its symbol's entries in traversal
order; groups appear once per symbol, in first-seen insertion order. -/
theorem shared_pairs_characterization (c : ArbitrageConfig)
    (data : List ExchangeData) :
    (∀ g : SharedPairInfo,
        g ∈ findSharedPairs c data ↔
          g.exchanges = entriesFor c data g.symbol ∧ 2 ≤ g.exchanges.length) ∧
      (findSharedPairs c data).map (fun g => g.symbol) =
        (firstDedup (allListedSymbols c data)).filter
          (fun s => decide (2 ≤ (entriesFor c data s).length)) ∧
      ((findSharedPairs c data).map (fun g => g.symbol)).Nodup := by
  have hkeys : (buildPairMap c data).map Prod.fst =
      firstDedup (allListedSymbols c data) := by
    rw [buildPairMap_eq_pushItems, pushItems_keys, firstDedup, allListedSymbols]
    rw [List.foldl_map, List.foldl_map]
    rfl
  have hsym : (findSharedPairs c data).map (fun g => g.symbol) =
      (firstDedup (allListedSymbols c data)).filter
        (fun s => decide (2 ≤ (entriesFor c data s).length)) := by
    rw [findSharedPairs, filterMap_symbols _ (buildPairMap_keys_nodup c data)]
    rw [List.filter_congr
      (fun k _ => by rw [valueAt_buildPairMap c data k]), hkeys]
  refine ⟨?_, hsym, ?_⟩
  · intro g
    rw [mem_findSharedPairs]
    constructor
    · rintro ⟨hmem, hlen⟩
      refine ⟨?_, hlen⟩
      rw [← valueAt_buildPairMap c data g.symbol]
      exact (valueAt_of_mem _ (buildPairMap_keys_nodup c data) hmem).symm
    · rintro ⟨hexch, hlen⟩
      refine ⟨?_, hlen⟩
      have hne : entriesFor c data g.symbol ≠ [] := by
        intro h0
        rw [hexch, h0] at hlen
        simp at hlen
      have hkey : g.symbol ∈ (buildPairMap c data).map Prod.fst := by
        by_contra hk
        refine hne ?_
        rw [← valueAt_buildPairMap c data g.symbol]
        exact valueAt_eq_nil_of_not_mem _ _ hk
      have hm := mem_of_mem_keys (buildPairMap c data) g.symbol hkey
      rw [valueAt_buildPairMap c data g.symbol, ← hexch] at hm
      exact hm
  · rw [hsym]
    exact List.Nodup.filter _ (insFold_nodup _ [] (by simp))

/-- C6 witness: with two exchanges listing AAA/USDT, the shared group is
emitted with both members. -/
theorem shared_pairs_characterization_witness :
    gC6W ∈ findSharedPairs cfgC6 dataC6W :=
  ((shared_pairs_characterization cfgC6 dataC6W).1 gC6W).mpr
    ⟨by decide, by decide⟩

/-- C6 counterexample: one exchange listing the same symbol twice yields a
group whose two members both come from exchange X — a symbol seen on
exactly one source does produce a `SharedPairGroup`, because the resolver
counts entries, not distinct sources. -/
theorem duplicate_single_source_group_example :
    findSharedPairs cfgC6 dataC6 = [gC6] ∧
      gC6.exchanges.map Prod.fst = ["X", "X"] := by
  constructor
  · decide
  · rfl

/-- An entry of the traversal survives the quote filter. -/
theorem itemsOf_keep (c : ArbitrageConfig) (data : List ExchangeData)
    (e : String × StandardPair) (h : e ∈ itemsOf c data) :
    keepPair c e.2 = true := by
  rw [itemsOf, List.mem_flatMap] at h
  obtain ⟨ex, hex, he⟩ := h
  rw [List.mem_map] at he
  obtain ⟨p, hp, rfl⟩ := he
  exact (List.mem_filter.mp hp).2

/-- C7: when the quote filter is active, every member of every emitted
group is quoted in a filtered asset (so a pair with an excluded quote
appears in no group); when it is inactive, `findSharedPairs` behaves as
with no filter at all. -/
theorem quote_filter_respected (c : ArbitrageConfig)
    (data : List ExchangeData) :
    (quoteFilterActive c = true →
      ∀ g ∈ findSharedPairs c data, ∀ e ∈ g.exchanges,
        (c.quoteAssetsFilter.getD []).contains e.2.quote = true) ∧
    (quoteFilterActive c = false →
      findSharedPairs c data =
        findSharedPairs ⟨c.minProfitPercentage, none⟩ data) := by
  constructor
  · intro hact g hg e he
    obtain ⟨hmem, -⟩ := mem_findSharedPairs.mp hg
    have hval := valueAt_of_mem _ (buildPairMap_keys_nodup c data) hmem
    rw [valueAt_buildPairMap c data g.symbol] at hval
    rw [← hval] at he
    have hitem : e ∈ itemsOf c data := (List.mem_filter.mp he).1
    have hkeep := itemsOf_keep c data e hitem
    simpa [keepPair, hact] using hkeep
  · intro hinact
    have hk : ∀ p : StandardPair,
        keepPair c p = keepPair ⟨c.minProfitPercentage, none⟩ p := by
      intro p
      simp only [keepPair, hinact]
      rfl
    have hb : buildPairMap c data =
        buildPairMap ⟨c.minProfitPercentage, none⟩ data := by
      rw [buildPairMap, buildPairMap]
      congr 1
      funext m exchange
      congr 1
      funext m2 pair
      rw [hk]
    rw [findSharedPairs, findSharedPairs, hb]

/-- C7 witness: with filter USDT, the member entries of the emitted shared
group are USDT-quoted. -/
theorem quote_filter_respected_witness :
    (cfgC7.quoteAssetsFilter.getD []).contains pairC7XT.quote = true :=
  (quote_filter_respected cfgC7 dataC7).1 rfl gC7 (by decide)
    ("X", pairC7XT) (by decide)

end Arbitrage
